import Mathlib

/-!
Shallow embedding of `mark.go` (a Mark V. Shaney / Markov-chain text program).

Modelling conventions:
* A Go `string` is modelled as `List Char` (`GoStr`).  Go compares and sorts
  strings bytewise; since UTF-8 is order-preserving on code points, the
  lexicographic order on `List Char` coincides with Go's string order.
* A Go `map` is modelled as an association list whose valid states have
  `Nodup` keys; `lookupA` / `setA` model map read / write.
* Go code that can panic (out-of-range slice access, `strconv` failures that
  the program turns into `panic`) is modelled with `Option`: `none` means the
  program dies without returning a value.
* Go `int` is modelled as `Int` (the program never approaches 64-bit
  overflow in the claims under study; `strconv.Atoi` range errors are not
  modelled).
* A file is modelled as its list of lines (`FreqTableToFile` emits one line
  per `Fprintln`; `FreqTableFromFreqFile` reads the file with a line
  scanner), and the byte stream fed to `Build` as its list of
  whitespace-delimited tokens (`fmt.Fscan` / `bufio.ScanWords` tokenisation,
  also modelled explicitly by `scanWords`).
* Go map iteration order is unspecified; the model iterates association
  lists in list order, a legitimate instantiation.  `FreqTableToFile` sorts
  prefix keys before emission, so its line order is canonical.
-/

namespace MarkVShaney

/-- A Go string, as its list of characters. -/
abbrev GoStr := List Char

/-- A string with no space character (true of every whitespace-delimited
token, and what makes space-joined encodings unambiguous). -/
def spaceFree (s : GoStr) : Prop := ' ' ∉ s

instance (s : GoStr) : Decidable (spaceFree s) := by
  unfold spaceFree; infer_instance

/-- The sentinel token the program fills the initial window with:
the two-character Go literal `"\"\""`, i.e. two double-quote characters. -/
def sentinel : GoStr := ['"', '"']

/-- Go `strings.Join(parts, " ")`. -/
def joinSpace : List GoStr → GoStr
  | [] => []
  | [t] => t
  | t :: rest => t ++ ' ' :: joinSpace rest

/-- Accumulator worker for `splitSpace`. -/
def splitSpaceAux : List Char → List Char → List GoStr
  | [], acc => [acc.reverse]
  | c :: cs, acc => if c = ' ' then acc.reverse :: splitSpaceAux cs [] else splitSpaceAux cs (c :: acc)

/-- Go `strings.Split(s, " ")`: split on every single space; the result is
never empty, and `strings.Split("", " ")` is `[""]`. -/
def splitSpace (s : GoStr) : List GoStr := splitSpaceAux s []

/-- Go `unicode.IsSpace` restricted to the ASCII space characters (the only
ones exercised here). -/
def goIsSpace (c : Char) : Bool :=
  c = ' ' ∨ c = '\t' ∨ c = '\n' ∨ c = '\x0b' ∨ c = '\x0c' ∨ c = '\r'

/-- Accumulator worker for `scanWords`. -/
def scanWordsAux : List Char → List Char → List GoStr
  | [], [] => []
  | [], acc => [acc.reverse]
  | c :: cs, acc =>
    if goIsSpace c then
      if acc = [] then scanWordsAux cs [] else acc.reverse :: scanWordsAux cs []
    else scanWordsAux cs (c :: acc)

/-- Model of `bufio.ScanWords` / `fmt.Fscan` tokenisation: split the input into
maximal runs of non-whitespace characters, discarding empties. -/
def scanWords (s : GoStr) : List GoStr := scanWordsAux s []

/-- Decimal digit test, as in `strconv.Atoi`'s accepted characters. -/
def goIsDigit (c : Char) : Bool := '0' ≤ c ∧ c ≤ '9'

/-- Value of a digit string (caller guarantees all characters are digits). -/
def digitsToNat (cs : List Char) : Nat :=
  cs.foldl (fun acc c => acc * 10 + (c.toNat - 48)) 0

/-- Go `strconv.Atoi`: optional single sign, then one or more decimal
digits; anything else is an error (`none`).  Range errors (beyond 64-bit)
are not modelled. -/
def atoi (s : GoStr) : Option Int :=
  match s with
  | [] => none
  | c :: rest =>
    if c = '-' then
      if rest ≠ [] ∧ rest.all goIsDigit then some (-(digitsToNat rest : Int)) else none
    else if c = '+' then
      if rest ≠ [] ∧ rest.all goIsDigit then some ((digitsToNat rest : Int)) else none
    else if (c :: rest).all goIsDigit then some ((digitsToNat (c :: rest) : Int)) else none

/-- The decimal digit character for `d < 10`. -/
def digitChar (d : Nat) : Char :=
  if d = 0 then '0' else if d = 1 then '1' else if d = 2 then '2'
  else if d = 3 then '3' else if d = 4 then '4' else if d = 5 then '5'
  else if d = 6 then '6' else if d = 7 then '7' else if d = 8 then '8' else '9'

/-- Fuel-driven worker for `natToDigits` (structural recursion so that the
kernel can evaluate it; any fuel at least `n` gives the digits of `n`). -/
def natToDigitsAux : Nat → Nat → List Char
  | 0, _ => []
  | fuel + 1, n =>
    if n = 0 then [] else natToDigitsAux fuel (n / 10) ++ [digitChar (n % 10)]

/-- Decimal digits of `n` (empty for `0`; `itoa` special-cases zero). -/
def natToDigits (n : Nat) : List Char := natToDigitsAux n n

/-- Go `strconv.Itoa`. -/
def itoa (v : Int) : GoStr :=
  if v < 0 then '-' :: natToDigits (-v).toNat
  else if v = 0 then ['0']
  else natToDigits v.toNat

section Assoc

variable {α β : Type} [DecidableEq α]

/-- Go map read: first binding of `k`, if any. -/
def lookupA : List (α × β) → α → Option β
  | [], _ => none
  | (k', v) :: rest, k => if k' = k then some v else lookupA rest k

/-- Go map write: replace the binding of `k` (or append a fresh one). -/
def setA : List (α × β) → α → β → List (α × β)
  | [], k, v => [(k, v)]
  | (k', v') :: rest, k, v => if k' = k then (k, v) :: rest else (k', v') :: setA rest k v

end Assoc

/-- The inner map of a frequency table: suffix token to count. -/
abbrev Inner := List (GoStr × Int)

/-- The outer frequency table: prefix key to suffix-count map. -/
abbrev Table := List (GoStr × Inner)

/-- The expanded chain map: prefix key to suffix sequence. -/
abbrev ChainMap := List (GoStr × List GoStr)

/-- The `Chain` struct of `mark.go`: `chain`, `prefixLen`, `freqTable`. -/
structure Chain where
  chain : ChainMap
  prefixLen : Int
  freqTable : Table
deriving DecidableEq

/-- Model of `NewChain(prefixLen)`: both maps start empty. -/
def NewChain (prefixLen : Int) : Chain := ⟨[], prefixLen, []⟩

/-- Model of `Prefix.Shift`: drop the oldest word, append the new one.  On an empty
window the Go code slices `p[1:]` and indexes `p[len(p)-1]`, both
out-of-range panics, modelled as `none`. -/
def shiftOpt (p : List GoStr) (w : GoStr) : Option (List GoStr) :=
  match p with
  | [] => none
  | _ :: rest => some (rest ++ [w])

/-- The effect of a successful `Prefix.Shift` (window already nonempty). -/
def shiftT (p : List GoStr) (w : GoStr) : List GoStr := p.tail ++ [w]

/-- Model of `make([]string, prefixLen)` filled with the sentinel, as at the top of
`Build`, `FileToFreqTable` and `Generate`; `make` with a negative length
panics, modelled as `none`. -/
def startWindow (prefixLen : Int) : Option (List GoStr) :=
  if prefixLen < 0 then none else some (List.replicate prefixLen.toNat sentinel)

/-- The builder's inner-map update: `val[s]++` on a present suffix, else a
fresh entry with count 1. -/
def incr (inner : Inner) (s : GoStr) : Inner :=
  match lookupA inner s with
  | some v => setA inner s (v + 1)
  | none => inner ++ [(s, 1)]

/-- The builder's table update for one `(prefix key, suffix)` observation:
`freqTable[key][s]++`, creating `map[string]int{s: 1}` for a new key. -/
def bump (tbl : Table) (key s : GoStr) : Table :=
  match lookupA tbl key with
  | some inner => setA tbl key (incr inner s)
  | none => tbl ++ [(key, [(s, 1)])]

/-- Model of `c.chain[key] = append(c.chain[key], s)`. -/
def appendChain (ch : ChainMap) (key s : GoStr) : ChainMap :=
  setA ch key ((lookupA ch key).getD [] ++ [s])

/-- One iteration of the build loop: record the observation, then shift the
window (which can panic on an empty window). -/
def buildStep (c : Chain) (p : List GoStr) (s : GoStr) : Option (Chain × List GoStr) :=
  let key := joinSpace p
  let c' : Chain := { c with freqTable := bump c.freqTable key s,
                             chain := appendChain c.chain key s }
  match shiftOpt p s with
  | none => none
  | some p' => some (c', p')

/-- The build loop over the token stream. -/
def buildLoop : Chain → List GoStr → List GoStr → Option Chain
  | c, _, [] => some c
  | c, p, s :: rest =>
    match buildStep c p s with
    | none => none
    | some (c', p') => buildLoop c' p' rest

/-- Model of `Chain.Build` / `Chain.FileToFreqTable` on an already-tokenised stream:
start from a sentinel-filled window and fold the stream in.  (The two Go
functions share this loop verbatim; they differ only in how the reader is
tokenised, which `Build` below composes with `scanWords`.) -/
def BuildTokens (c : Chain) (tokens : List GoStr) : Option Chain :=
  match startWindow c.prefixLen with
  | none => none
  | some p => buildLoop c p tokens

/-- Model of `Chain.Build` on raw input text. -/
def Build (c : Chain) (input : GoStr) : Option Chain :=
  BuildTokens c (scanWords input)

/-- Model of `Chain.FileToFreqTable` on the contents of the named file. -/
def FileToFreqTable (c : Chain) (contents : GoStr) : Option Chain :=
  Build c contents

/-- Go string comparison (`<=`, bytewise lexicographic), the order used by
`sort.Strings`. -/
def strLe : GoStr → GoStr → Bool
  | [], _ => true
  | _ :: _, [] => false
  | a :: as, b :: bs => if a < b then true else if b < a then false else strLe as bs

/-- Relation form of `strLe`, for `List.insertionSort`. -/
def strLeR (a b : GoStr) : Prop := strLe a b = true

instance : DecidableRel strLeR := fun a b => by unfold strLeR; infer_instance

/-- The `sufCount` slice built for one table entry: alternating suffix
tokens and `Itoa` of their counts, in map-iteration order. -/
def pairFields : Inner → List GoStr
  | [] => []
  | p :: rest => p.1 :: itoa p.2 :: pairFields rest

/-- The sorted key slice `FreqTableToFile` iterates over
(`sort.Strings(keys)`; on the `Nodup` key lists that arise from maps, any
correct sort produces this list). -/
def sortedKeys (tbl : Table) : List GoStr :=
  List.insertionSort strLeR (tbl.map Prod.fst)

/-- The data line `FreqTableToFile` writes for one prefix key:
`key + " " + strings.Join(sufCount, " ")`. -/
def lineFor (tbl : Table) (key : GoStr) : GoStr :=
  key ++ ' ' :: joinSpace (pairFields ((lookupA tbl key).getD []))

/-- Model of `Chain.FreqTableToFile`, as the list of lines written: first
`Itoa(prefixLen)`, then one line per prefix key in sorted order. -/
def FreqTableToFile (c : Chain) : List GoStr :=
  itoa c.prefixLen :: (sortedKeys c.freqTable).map (lineFor c.freqTable)

/-- The decoder's suffix-pair loop over the fields after the prefix:
`items[i+1]` on an odd remainder is an out-of-range panic (`none`), a count
field `Atoi` fails to parse panics (`none`), otherwise each pair is written
into the inner map. -/
def pairLoop : List GoStr → Inner → Option Inner
  | [], inner => some inner
  | [_], _ => none
  | s :: cnt :: rest, inner =>
    match atoi cnt with
    | none => none
    | some v => pairLoop rest (setA inner s v)

/-- One line of `FreqTableFromFreqFile`: a line splitting into more than one
field is a data line (prefix fields, then suffix/count pairs); a single
nonempty field is (re)parsed as `prefixLen`; an empty line is skipped.
Index panics — a negative `prefixLen` entering the pair loop, or a prefix
longer than the line — are `none`. -/
def decodeLine (c : Chain) (line : GoStr) : Option Chain :=
  let items := splitSpace line
  if 1 < items.length then
    match c.prefixLen with
    | .negSucc _ => none
    | .ofNat k =>
      if k ≤ items.length then
        let key := joinSpace (items.take k)
        match pairLoop (items.drop k) [] with
        | none => none
        | some inner => some { c with freqTable := setA c.freqTable key inner }
      else none
  else
    match items with
    | [f] =>
      if 0 < f.length then
        match atoi f with
        | none => none
        | some n => some { c with prefixLen := n }
      else some c
    | _ => some c

/-- The decoder's scan over the file's lines. -/
def decodeLines : Chain → List GoStr → Option Chain
  | c, [] => some c
  | c, line :: rest =>
    match decodeLine c line with
    | none => none
    | some c' => decodeLines c' rest

/-- Model of `FreqTableFromFreqFile`, on the file's list of lines; starts from
`NewChain(0)`. -/
def FreqTableFromFreqFile (lines : List GoStr) : Option Chain :=
  decodeLines (NewChain 0) lines

/-- The suffix sequence `ChainFromFreqTable` builds for one inner map: each
suffix repeated `count` times (`for i := 0; i < v2; i++`, so a non-positive
count contributes nothing). -/
def expandInner : Inner → List GoStr
  | [] => []
  | p :: rest => List.replicate p.2.toNat p.1 ++ expandInner rest

/-- Model of `Chain.ChainFromFreqTable`: set `chain[k]` to the expansion of every
frequency-table entry. -/
def ChainFromFreqTable (c : Chain) : Chain :=
  { c with chain := c.freqTable.foldl (fun ch e => setA ch e.1 (expandInner e.2)) c.chain }

/-- The generator loop: `n` remaining iterations, current window `p`, step
index `step` feeding the injected random source `rng` (the value
`rng step % len(choices)` models `rand.Intn(len(choices))`).  An empty (or
missing) choice list breaks; a shift panic (empty window) is `none`. -/
def generateLoop (chain : ChainMap) (rng : Nat → Nat) :
    Nat → List GoStr → Nat → Option (List GoStr)
  | 0, _, _ => some []
  | n + 1, p, step =>
    let choices := (lookupA chain (joinSpace p)).getD []
    if choices.isEmpty then some []
    else
      let next := choices.getD (rng step % choices.length) []
      match shiftOpt p next with
      | none => none
      | some p' => (generateLoop chain rng n p' (step + 1)).map (next :: ·)

/-- Model of `Chain.Generate(n)` with an injected random source, returning the list
of emitted words (the Go function returns them joined with single spaces). -/
def Generate (c : Chain) (rng : Nat → Nat) (n : Nat) : Option (List GoStr) :=
  match startWindow c.prefixLen with
  | none => none
  | some p => generateLoop c.chain rng n p 0

/-- Sum of the counts of one inner map. -/
def innerSum (inner : Inner) : Int := (inner.map Prod.snd).sum

/-- Sum of all counts of a frequency table. -/
def totalCount (tbl : Table) : Int := (tbl.map fun e => innerSum e.2).sum

/-- Two-level map read of a frequency table. -/
def innerLookup (tbl : Table) (key s : GoStr) : Option Int :=
  match lookupA tbl key with
  | none => none
  | some inner => lookupA inner s

/-- Map equality of frequency tables: same prefix-key domain, and the same
suffix-count lookups under every key — order and representation free. -/
def tableEquiv (d o : Table) : Prop :=
  (∀ key, (lookupA d key).isSome = (lookupA o key).isSome) ∧
  ∀ key s, innerLookup d key s = innerLookup o key s



/-- A well-formed prefix key for window length `k`: the space-join of `k`
space-free tokens (what `p.String()` produces during building). -/
def wfKey (k : Nat) (key : GoStr) : Prop :=
  ∃ toks : List GoStr, toks.length = k ∧ (∀ t ∈ toks, spaceFree t) ∧ key = joinSpace toks

/-- A well-formed inner map as the builder produces it: nonempty, distinct
space-free suffixes, all counts at least 1. -/
def wfInner (inner : Inner) : Prop :=
  inner ≠ [] ∧ (inner.map Prod.fst).Nodup ∧ ∀ p ∈ inner, spaceFree p.1 ∧ 1 ≤ p.2

/-- A well-formed frequency table for prefix length `k`, the invariant of
tables built by `Build` from a whitespace-token stream. -/
def wfTable (k : Nat) (tbl : Table) : Prop :=
  (tbl.map Prod.fst).Nodup ∧ ∀ e ∈ tbl, wfKey k e.1 ∧ wfInner e.2

/-! ### Association-list (Go map) lemmas -/

section AssocLemmas

variable {α β : Type} [DecidableEq α]

theorem lookupA_setA_self (l : List (α × β)) (k : α) (v : β) :
    lookupA (setA l k v) k = some v := by
  induction l with
  | nil => simp [setA, lookupA]
  | cons hd tl ih =>
    obtain ⟨k', v'⟩ := hd
    by_cases h : k' = k <;> simp [setA, lookupA, h, ih]

theorem lookupA_setA_ne (l : List (α × β)) (k k' : α) (v : β) (h : k' ≠ k) :
    lookupA (setA l k v) k' = lookupA l k' := by
  have hne : ¬k = k' := fun e => h e.symm
  induction l with
  | nil => simp [setA, lookupA, hne]
  | cons hd tl ih =>
    obtain ⟨k₀, v₀⟩ := hd
    by_cases h₀ : k₀ = k
    · subst h₀
      simp [setA, lookupA, hne]
    · by_cases h₁ : k₀ = k' <;> simp [setA, lookupA, h₀, h₁, hne, h, ih]

theorem setA_of_lookup_none (l : List (α × β)) (k : α) (v : β)
    (h : lookupA l k = none) : setA l k v = l ++ [(k, v)] := by
  induction l with
  | nil => simp [setA]
  | cons hd tl ih =>
    obtain ⟨k₀, v₀⟩ := hd
    by_cases h₀ : k₀ = k
    · simp [lookupA, h₀] at h
    · simp [lookupA, h₀] at h
      simp [setA, h₀, ih h]

theorem lookupA_append (a b : List (α × β)) (k : α) :
    lookupA (a ++ b) k =
      match lookupA a k with
      | some v => some v
      | none => lookupA b k := by
  induction a with
  | nil => simp [lookupA]
  | cons hd tl ih =>
    obtain ⟨k₀, v₀⟩ := hd
    by_cases h₀ : k₀ = k <;> simp [lookupA, h₀, ih]

theorem lookupA_none_iff (l : List (α × β)) (k : α) :
    lookupA l k = none ↔ k ∉ l.map Prod.fst := by
  induction l with
  | nil => simp [lookupA]
  | cons hd tl ih =>
    obtain ⟨k₀, v₀⟩ := hd
    by_cases h₀ : k₀ = k
    · subst h₀; simp [lookupA]
    · have h₀' : ¬k = k₀ := fun e => h₀ e.symm
      simp [lookupA, h₀, h₀', ih]

theorem lookupA_mem_of_nodup (l : List (α × β)) (k : α) (v : β)
    (hnd : (l.map Prod.fst).Nodup) :
    lookupA l k = some v ↔ (k, v) ∈ l := by
  induction l with
  | nil => simp [lookupA]
  | cons hd tl ih =>
    obtain ⟨k₀, v₀⟩ := hd
    simp only [List.map_cons, List.nodup_cons] at hnd
    by_cases h₀ : k₀ = k
    · subst h₀
      simp only [lookupA, if_pos rfl, List.mem_cons]
      constructor
      · rintro ⟨rfl⟩
        exact Or.inl rfl
      · rintro (h | h)
        · cases h; rfl
        · exact absurd (List.mem_map_of_mem Prod.fst h) hnd.1
    · simp only [lookupA, if_neg h₀, List.mem_cons]
      rw [ih hnd.2]
      constructor
      · exact Or.inr
      · rintro (h | h)
        · cases h; exact absurd rfl h₀
        · exact h

theorem lookupA_perm (l₁ l₂ : List (α × β)) (hnd : (l₁.map Prod.fst).Nodup)
    (hp : l₁.Perm l₂) (k : α) : lookupA l₁ k = lookupA l₂ k := by
  have hnd₂ : (l₂.map Prod.fst).Nodup := (hp.map Prod.fst).nodup_iff.mp hnd
  cases h₁ : lookupA l₁ k with
  | none =>
    rw [lookupA_none_iff] at h₁
    have : k ∉ l₂.map Prod.fst := fun hm => h₁ ((hp.map Prod.fst).mem_iff.mpr hm)
    rw [eq_comm, lookupA_none_iff]
    exact this
  | some v =>
    rw [lookupA_mem_of_nodup _ _ _ hnd] at h₁
    rw [eq_comm, lookupA_mem_of_nodup _ _ _ hnd₂]
    exact hp.mem_iff.mp h₁

theorem foldl_setA_disjoint (entries : List (α × β)) :
    ∀ acc : List (α × β),
    (∀ k ∈ entries.map Prod.fst, lookupA acc k = none) →
    (entries.map Prod.fst).Nodup →
    entries.foldl (fun a e => setA a e.1 e.2) acc = acc ++ entries := by
  induction entries with
  | nil => simp
  | cons hd tl ih =>
    intro acc hdisj hnd
    obtain ⟨k₀, v₀⟩ := hd
    simp only [List.map_cons, List.nodup_cons] at hnd
    have h₀ : lookupA acc k₀ = none := hdisj k₀ (by simp)
    have hstep : setA acc k₀ v₀ = acc ++ [(k₀, v₀)] := setA_of_lookup_none _ _ _ h₀
    simp only [List.foldl_cons, hstep]
    rw [ih (acc ++ [(k₀, v₀)]) ?_ hnd.2]
    · simp
    · intro k hk
      rw [lookupA_append]
      have hne : k₀ ≠ k := fun e => hnd.1 (e ▸ hk)
      have : lookupA acc k = none := hdisj k (by simp [hk])
      simp [this, lookupA, hne]

end AssocLemmas

/-! ### Split / join lemmas -/

theorem spaceFree_cons {c : Char} {cs : List Char} (h : spaceFree (c :: cs)) :
    c ≠ ' ' ∧ spaceFree cs := by
  constructor
  · intro e
    exact h (e ▸ List.mem_cons_self c cs)
  · intro hm
    exact h (List.mem_cons_of_mem c hm)

theorem splitSpaceAux_spaceFree (t : List Char) :
    ∀ acc : List Char, spaceFree t → splitSpaceAux t acc = [acc.reverse ++ t] := by
  induction t with
  | nil => intro acc _; simp [splitSpaceAux]
  | cons c cs ih =>
    intro acc h
    obtain ⟨hc, hcs⟩ := spaceFree_cons h
    simp [splitSpaceAux, hc, ih (c :: acc) hcs]

theorem splitSpaceAux_sep (t : List Char) (rest : List Char) :
    ∀ acc : List Char, spaceFree t →
    splitSpaceAux (t ++ ' ' :: rest) acc = (acc.reverse ++ t) :: splitSpaceAux rest [] := by
  induction t with
  | nil => intro acc _; simp [splitSpaceAux]
  | cons c cs ih =>
    intro acc h
    obtain ⟨hc, hcs⟩ := spaceFree_cons h
    simp [splitSpaceAux, hc, ih (c :: acc) hcs]

theorem splitSpace_joinSpace (parts : List GoStr) (hne : parts ≠ [])
    (h : ∀ t ∈ parts, spaceFree t) : splitSpace (joinSpace parts) = parts := by
  induction parts with
  | nil => exact absurd rfl hne
  | cons t rest ih =>
    cases rest with
    | nil =>
      have := splitSpaceAux_spaceFree t [] (h t (by simp))
      simpa [splitSpace, joinSpace] using this
    | cons r rs =>
      have ht : spaceFree t := h t (by simp)
      have hrest : ∀ u ∈ r :: rs, spaceFree u := fun u hu => h u (by simp [hu])
      have hrec := ih (by simp) hrest
      simp only [joinSpace, splitSpace] at *
      rw [splitSpaceAux_sep t _ [] ht]
      simp [hrec]

theorem joinSpace_append (a b : List GoStr) (ha : a ≠ []) (hb : b ≠ []) :
    joinSpace (a ++ b) = joinSpace a ++ ' ' :: joinSpace b := by
  induction a with
  | nil => exact absurd rfl ha
  | cons t rest ih =>
    cases rest with
    | nil =>
      cases b with
      | nil => exact absurd rfl hb
      | cons r rs => simp [joinSpace]
    | cons t₂ ts =>
      have h2 := ih (by simp)
      show t ++ ' ' :: joinSpace ((t₂ :: ts) ++ b) =
        (t ++ ' ' :: joinSpace (t₂ :: ts)) ++ ' ' :: joinSpace b
      rw [h2]
      simp

/-! ### Decimal print / parse lemmas -/

theorem digitChar_isDigit (d : Nat) (h : d < 10) : goIsDigit (digitChar d) = true := by
  interval_cases d <;> decide

theorem digitChar_toNat (d : Nat) (h : d < 10) : (digitChar d).toNat = 48 + d := by
  interval_cases d <;> decide

theorem natToDigitsAux_congr (f₁ : Nat) :
    ∀ f₂ n : Nat, n ≤ f₁ → n ≤ f₂ → natToDigitsAux f₁ n = natToDigitsAux f₂ n := by
  induction f₁ with
  | zero =>
    intro f₂ n h₁ _
    interval_cases n
    cases f₂ <;> simp [natToDigitsAux]
  | succ m ih =>
    intro f₂ n h₁ h₂
    by_cases hn : n = 0
    · subst hn
      cases f₂ <;> simp [natToDigitsAux]
    · have hd : n / 10 < n := Nat.div_lt_self (by omega) (by omega)
      cases f₂ with
      | zero => omega
      | succ m₂ =>
        simp only [natToDigitsAux, if_neg hn]
        rw [ih m₂ (n / 10) (by omega) (by omega)]

theorem natToDigits_pos (n : Nat) (h : 0 < n) :
    natToDigits n = natToDigits (n / 10) ++ [digitChar (n % 10)] := by
  have hd : n / 10 < n := Nat.div_lt_self h (by omega)
  cases n with
  | zero => omega
  | succ m =>
    show natToDigitsAux (m + 1) (m + 1) = _
    simp only [natToDigitsAux, if_neg (Nat.succ_ne_zero m)]
    rw [natToDigitsAux_congr m ((m + 1) / 10) ((m + 1) / 10) (by omega) le_rfl]
    rfl

theorem natToDigits_all_digits (n : Nat) : (natToDigits n).all goIsDigit = true := by
  induction n using Nat.strongRecOn with
  | ind n ih =>
    cases n with
    | zero => rfl
    | succ m =>
      rw [natToDigits_pos _ (Nat.succ_pos m), List.all_append]
      have h1 := ih ((m + 1) / 10) (Nat.div_lt_self (Nat.succ_pos m) (by omega))
      have h2 := digitChar_isDigit ((m + 1) % 10) (Nat.mod_lt _ (by omega))
      simp [h1, h2]

theorem digitsToNat_append (cs : List Char) (c : Char) :
    digitsToNat (cs ++ [c]) = 10 * digitsToNat cs + (c.toNat - 48) := by
  simp [digitsToNat, List.foldl_append, Nat.mul_comm]

theorem digitsToNat_natToDigits (n : Nat) : digitsToNat (natToDigits n) = n := by
  induction n using Nat.strongRecOn with
  | ind n ih =>
    cases n with
    | zero => rfl
    | succ m =>
      rw [natToDigits_pos _ (Nat.succ_pos m), digitsToNat_append,
        ih ((m + 1) / 10) (Nat.div_lt_self (Nat.succ_pos m) (by omega)),
        digitChar_toNat _ (Nat.mod_lt _ (by omega))]
      omega

theorem natToDigits_ne_nil (n : Nat) (h : 0 < n) : natToDigits n ≠ [] := by
  rw [natToDigits_pos _ h]
  simp

theorem atoi_of_digits (s : GoStr) (hne : s ≠ []) (hd : s.all goIsDigit = true) :
    atoi s = some (digitsToNat s) := by
  cases s with
  | nil => exact absurd rfl hne
  | cons c rest =>
    have hc : goIsDigit c = true := by
      simp only [List.all_cons, Bool.and_eq_true] at hd
      exact hd.1
    have hminus : ¬c = '-' := by
      intro e; subst e; simp [goIsDigit] at hc
    have hplus : ¬c = '+' := by
      intro e; subst e; simp [goIsDigit] at hc
    simp [atoi, hminus, hplus, hd]

theorem atoi_itoa_pos (v : Int) (h : 1 ≤ v) : atoi (itoa v) = some v := by
  have hnlt : ¬v < 0 := by omega
  have hnz : ¬v = 0 := by omega
  have hpos : 0 < v.toNat := by omega
  rw [itoa, if_neg hnlt, if_neg hnz,
    atoi_of_digits _ (natToDigits_ne_nil _ hpos) (natToDigits_all_digits _),
    digitsToNat_natToDigits]
  simp [Int.toNat_of_nonneg (show (0 : Int) ≤ v by omega)]

theorem spaceFree_of_digits (s : GoStr) (hd : s.all goIsDigit = true) : spaceFree s := by
  intro hm
  rw [List.all_eq_true] at hd
  have := hd ' ' hm
  simp [goIsDigit] at this

theorem itoa_spaceFree (v : Int) : spaceFree (itoa v) := by
  rw [itoa]
  by_cases h1 : v < 0
  · rw [if_pos h1]
    intro hm
    rcases List.mem_cons.mp hm with h | h
    · exact absurd h (by decide)
    · exact spaceFree_of_digits _ (natToDigits_all_digits _) h
  · rw [if_neg h1]
    by_cases h2 : v = 0
    · rw [if_pos h2]; decide
    · rw [if_neg h2]
      exact spaceFree_of_digits _ (natToDigits_all_digits _)

theorem itoa_ne_nil (v : Int) : itoa v ≠ [] := by
  rw [itoa]
  by_cases h1 : v < 0
  · simp [if_pos h1]
  · rw [if_neg h1]
    by_cases h2 : v = 0
    · simp [if_pos h2]
    · rw [if_neg h2]
      exact natToDigits_ne_nil _ (by omega)

/-! ### Lexicographic string-order lemmas (the order used by `sort.Strings`) -/

theorem strLe_total (a b : GoStr) : strLe a b = true ∨ strLe b a = true := by
  induction a generalizing b with
  | nil => left; rfl
  | cons x xs ih =>
    cases b with
    | nil => right; rfl
    | cons y ys =>
      rcases lt_trichotomy x y with h | h | h
      · left; simp [strLe, h]
      · subst h
        rcases ih ys with h | h
        · left; simp [strLe, lt_irrefl, h]
        · right; simp [strLe, lt_irrefl, h]
      · right; simp [strLe, h]

theorem strLe_trans (a b c : GoStr) (hab : strLe a b = true) (hbc : strLe b c = true) :
    strLe a c = true := by
  induction a generalizing b c with
  | nil => rfl
  | cons x xs ih =>
    cases b with
    | nil => simp [strLe] at hab
    | cons y ys =>
      cases c with
      | nil => simp [strLe] at hbc
      | cons z zs =>
        rcases lt_trichotomy x y with h₁ | h₁ | h₁
        · rcases lt_trichotomy y z with h₂ | h₂ | h₂
          · simp [strLe, lt_trans h₁ h₂]
          · subst h₂; simp [strLe, h₁]
          · simp [strLe, h₂, lt_asymm h₂] at hbc
        · subst h₁
          rcases lt_trichotomy x z with h₂ | h₂ | h₂
          · simp [strLe, h₂]
          · subst h₂
            simp only [strLe, lt_irrefl, if_false] at hab hbc ⊢
            exact ih ys zs hab hbc
          · simp [strLe, h₂, lt_asymm h₂] at hbc
        · simp [strLe, h₁, lt_asymm h₁] at hab

instance : IsTotal GoStr strLeR := ⟨strLe_total⟩

instance : IsTrans GoStr strLeR := ⟨strLe_trans⟩

/-! ### Sum lemmas for the counting claims -/

theorem innerSum_cons (s : GoStr) (v : Int) (l : Inner) :
    innerSum ((s, v) :: l) = v + innerSum l := by
  simp [innerSum]

theorem sum_map_setA {α β : Type} [DecidableEq α] (f : β → Int) (l : List (α × β))
    (k : α) (v₀ v : β) (h : lookupA l k = some v₀) :
    ((setA l k v).map fun e => f e.2).sum = (l.map fun e => f e.2).sum - f v₀ + f v := by
  induction l with
  | nil => simp [lookupA] at h
  | cons hd tl ih =>
    obtain ⟨k₀, w⟩ := hd
    by_cases h₀ : k₀ = k
    · subst h₀
      have h' : w = v₀ := by simpa [lookupA] using h
      subst h'
      simp only [setA, eq_self_iff_true, if_true, List.map_cons, List.sum_cons]
      ring
    · simp only [lookupA, if_neg h₀] at h
      simp only [setA, if_neg h₀, List.map_cons, List.sum_cons, ih h]
      ring

theorem innerSum_incr (inner : Inner) (s : GoStr) :
    innerSum (incr inner s) = innerSum inner + 1 := by
  unfold incr
  cases h : lookupA inner s with
  | none => simp [innerSum]
  | some v =>
    have := sum_map_setA (fun v : Int => v) inner s v (v + 1) h
    simp only [innerSum] at *
    rw [this]
    ring

theorem totalCount_bump (tbl : Table) (key s : GoStr) :
    totalCount (bump tbl key s) = totalCount tbl + 1 := by
  unfold bump
  cases h : lookupA tbl key with
  | none => simp [totalCount, innerSum]
  | some inner =>
    have := sum_map_setA innerSum tbl key inner (incr inner s) h
    simp only [totalCount] at *
    rw [this, innerSum_incr]
    ring

/-! ### Expansion lemmas -/

theorem expandInner_length (inner : Inner) (h : ∀ p ∈ inner, 0 ≤ p.2) :
    ((expandInner inner).length : Int) = innerSum inner := by
  induction inner with
  | nil => simp [expandInner, innerSum]
  | cons hd tl ih =>
    obtain ⟨s, v⟩ := hd
    have h0 : (0 : Int) ≤ v := h (s, v) (by simp)
    simp only [expandInner, List.length_append, List.length_replicate, innerSum_cons]
    push_cast
    rw [ih (fun p hp => h p (by simp [hp])), Int.toNat_of_nonneg h0]

theorem mem_expandInner (inner : Inner) (x : GoStr) (h : x ∈ expandInner inner) :
    x ∈ inner.map Prod.fst := by
  induction inner with
  | nil => simp [expandInner] at h
  | cons hd tl ih =>
    obtain ⟨s, v⟩ := hd
    simp only [expandInner, List.mem_append] at h
    rcases h with h | h
    · have hx : x = s := List.eq_of_mem_replicate h
      subst hx
      simp
    · simp only [List.map_cons, List.mem_cons]
      exact Or.inr (ih h)

theorem expandInner_count (inner : Inner) (s : GoStr)
    (hnd : (inner.map Prod.fst).Nodup) (h : ∀ p ∈ inner, 0 ≤ p.2) :
    (((expandInner inner).count s : Int)) = ((lookupA inner s).getD 0) := by
  induction inner with
  | nil => simp [expandInner, lookupA]
  | cons hd tl ih =>
    obtain ⟨s₀, v⟩ := hd
    simp only [List.map_cons, List.nodup_cons] at hnd
    simp only [expandInner, List.count_append, List.count_replicate]
    by_cases h₀ : s₀ = s
    · subst h₀
      have hzero : (expandInner tl).count s₀ = 0 := by
        rw [List.count_eq_zero]
        intro hm
        exact hnd.1 (mem_expandInner tl s₀ hm)
      have h0 : (0 : Int) ≤ v := h (s₀, v) (by simp)
      simp [lookupA, hzero, Int.toNat_of_nonneg h0]
    · have hbeq : (s₀ == s) = false := beq_false_of_ne h₀
      rw [lookupA, if_neg h₀]
      simp only [hbeq, Bool.false_eq_true, if_false, Nat.zero_add]
      exact ih hnd.2 (fun p hp => h p (by simp [hp]))

theorem lookup_foldl_setA_not_mem {α β γ : Type} [DecidableEq α] (f : β → γ)
    (entries : List (α × β)) :
    ∀ (acc : List (α × γ)) (k : α), k ∉ entries.map Prod.fst →
    lookupA (entries.foldl (fun ch e => setA ch e.1 (f e.2)) acc) k = lookupA acc k := by
  induction entries with
  | nil => intro acc k _; rfl
  | cons hd tl ih =>
    intro acc k hk
    simp only [List.map_cons, List.mem_cons, not_or] at hk
    simp only [List.foldl_cons]
    rw [ih _ k hk.2, lookupA_setA_ne _ _ _ _ hk.1]

theorem lookup_foldl_setA_mem {α β γ : Type} [DecidableEq α] (f : β → γ)
    (entries : List (α × β)) :
    ∀ (acc : List (α × γ)) (k : α) (v : β),
    (entries.map Prod.fst).Nodup → (k, v) ∈ entries →
    lookupA (entries.foldl (fun ch e => setA ch e.1 (f e.2)) acc) k = some (f v) := by
  induction entries with
  | nil => intro acc k v _ hm; simp at hm
  | cons hd tl ih =>
    intro acc k v hnd hm
    obtain ⟨k₀, v₀⟩ := hd
    simp only [List.map_cons, List.nodup_cons] at hnd
    rcases List.mem_cons.mp hm with h | h
    · injection h with h1 h2
      subst h1
      subst h2
      simp only [List.foldl_cons]
      rw [lookup_foldl_setA_not_mem f tl _ k hnd.1, lookupA_setA_self]
    · simp only [List.foldl_cons]
      exact ih _ k v hnd.2 h

/-! ### Decoder infrastructure lemmas -/

theorem decodeLines_append (pre post : List GoStr) :
    ∀ c : Chain, decodeLines c (pre ++ post) =
      match decodeLines c pre with
      | none => none
      | some c' => decodeLines c' post := by
  induction pre with
  | nil => intro c; simp [decodeLines]
  | cons line rest ih =>
    intro c
    simp only [List.cons_append, decodeLines]
    cases decodeLine c line with
    | none => rfl
    | some c' => exact ih c'

theorem pairLoop_odd : ∀ l : List GoStr, l.length % 2 = 1 → ∀ inner, pairLoop l inner = none
  | [], h => by simp at h
  | [_], _ => fun _ => rfl
  | a :: b :: rest, h => by
    intro inner
    have hr : rest.length % 2 = 1 := by
      simp only [List.length_cons] at h
      omega
    unfold pairLoop
    cases atoi b with
    | none => rfl
    | some v => exact pairLoop_odd rest hr _

theorem pairLoop_pairFields (inner : Inner) :
    ∀ acc : Inner, (∀ p ∈ inner, 1 ≤ p.2) →
    pairLoop (pairFields inner) acc =
      some (inner.foldl (fun a p => setA a p.1 p.2) acc) := by
  induction inner with
  | nil => intro acc _; rfl
  | cons hd tl ih =>
    intro acc h
    obtain ⟨s, v⟩ := hd
    show pairLoop (s :: itoa v :: pairFields tl) acc = _
    unfold pairLoop
    rw [atoi_itoa_pos v (h (s, v) (by simp))]
    simp only [List.foldl_cons]
    exact ih _ (fun p hp => h p (by simp [hp]))

theorem pairFields_length (inner : Inner) :
    (pairFields inner).length = 2 * inner.length := by
  induction inner with
  | nil => rfl
  | cons hd tl ih => simp [pairFields, ih]; omega

theorem pairFields_spaceFree (inner : Inner) (h : ∀ p ∈ inner, spaceFree p.1) :
    ∀ t ∈ pairFields inner, spaceFree t := by
  induction inner with
  | nil => simp [pairFields]
  | cons hd tl ih =>
    obtain ⟨s, v⟩ := hd
    intro t ht
    simp only [pairFields, List.mem_cons] at ht
    rcases ht with rfl | rfl | ht
    · exact h (t, v) (by simp)
    · exact itoa_spaceFree v
    · exact ih (fun p hp => h p (by simp [hp])) t ht

/-! ### Builder lemmas -/

theorem mem_of_lookupA_some {α β : Type} [DecidableEq α] (l : List (α × β)) (k : α) (v : β)
    (h : lookupA l k = some v) : (k, v) ∈ l := by
  induction l with
  | nil => simp [lookupA] at h
  | cons hd tl ih =>
    obtain ⟨k₀, v₀⟩ := hd
    by_cases h₀ : k₀ = k
    · subst h₀
      have hv : v₀ = v := by simpa [lookupA] using h
      subst hv
      simp
    · simp only [lookupA, if_neg h₀] at h
      exact List.mem_cons_of_mem _ (ih h)

theorem mem_setA {α β : Type} [DecidableEq α] (l : List (α × β)) (k : α) (v : β) :
    ∀ x ∈ setA l k v, x ∈ l ∨ x = (k, v) := by
  induction l with
  | nil =>
    intro x hx
    simp [setA] at hx
    simp [hx]
  | cons hd tl ih =>
    obtain ⟨k₀, v₀⟩ := hd
    intro x hx
    by_cases h₀ : k₀ = k
    · simp only [setA, if_pos h₀] at hx
      rcases List.mem_cons.mp hx with h | h
      · right; exact h
      · left; exact List.mem_cons_of_mem _ h
    · simp only [setA, if_neg h₀] at hx
      rcases List.mem_cons.mp hx with h | h
      · left; exact h ▸ List.mem_cons_self _ _
      · rcases ih x h with h' | h'
        · left; exact List.mem_cons_of_mem _ h'
        · right; exact h'

theorem map_fst_setA_some {α β : Type} [DecidableEq α] (l : List (α × β)) (k : α) (v₀ v : β)
    (h : lookupA l k = some v₀) : (setA l k v).map Prod.fst = l.map Prod.fst := by
  induction l with
  | nil => simp [lookupA] at h
  | cons hd tl ih =>
    obtain ⟨k₀, w⟩ := hd
    by_cases h₀ : k₀ = k
    · subst h₀
      simp [setA]
    · simp only [lookupA, if_neg h₀] at h
      simp [setA, if_neg h₀, ih h]

theorem setA_ne_nil {α β : Type} [DecidableEq α] (l : List (α × β)) (k : α) (v : β) :
    setA l k v ≠ [] := by
  cases l with
  | nil => simp [setA]
  | cons hd tl =>
    obtain ⟨k₀, w⟩ := hd
    by_cases h₀ : k₀ = k <;> simp [setA, h₀]

theorem wfInner_incr (inner : Inner) (s : GoStr) (hw : wfInner inner) (hs : spaceFree s) :
    wfInner (incr inner s) := by
  obtain ⟨hne, hnd, hmem⟩ := hw
  unfold incr
  cases h : lookupA inner s with
  | none =>
    have hnm : s ∉ inner.map Prod.fst := (lookupA_none_iff _ _).mp h
    refine ⟨by simp, ?_, ?_⟩
    · rw [List.map_append]
      simp only [List.map_cons, List.map_nil]
      rw [List.nodup_append]
      exact ⟨hnd, List.nodup_singleton s, by simpa using fun hmem' => hnm hmem'⟩
    · intro p hp
      rcases List.mem_append.mp hp with h' | h'
      · exact hmem p h'
      · have hp1 : p = (s, 1) := by simpa using h'
        subst hp1
        exact ⟨hs, le_refl 1⟩
  | some v =>
    have hv := hmem (s, v) (mem_of_lookupA_some _ _ _ h)
    refine ⟨setA_ne_nil _ _ _, ?_, ?_⟩
    · rw [map_fst_setA_some _ _ _ _ h]
      exact hnd
    · intro p hp
      rcases mem_setA _ _ _ p hp with h' | h'
      · exact hmem p h'
      · subst h'
        exact ⟨hs, by omega⟩

theorem wfTable_bump (k : Nat) (tbl : Table) (key s : GoStr)
    (hw : wfTable k tbl) (hkey : wfKey k key) (hs : spaceFree s) :
    wfTable k (bump tbl key s) := by
  obtain ⟨hnd, hmem⟩ := hw
  unfold bump
  cases h : lookupA tbl key with
  | none =>
    have hnm : key ∉ tbl.map Prod.fst := (lookupA_none_iff _ _).mp h
    refine ⟨?_, ?_⟩
    · rw [List.map_append]
      simp only [List.map_cons, List.map_nil]
      rw [List.nodup_append]
      exact ⟨hnd, List.nodup_singleton _, by simpa using fun hmem' => hnm hmem'⟩
    · intro e he
      rcases List.mem_append.mp he with h' | h'
      · exact hmem e h'
      · have he1 : e = (key, [(s, 1)]) := by simpa using h'
        subst he1
        refine ⟨hkey, by simp, by simp, ?_⟩
        intro p hp
        have hp1 : p = (s, 1) := by simpa using hp
        subst hp1
        exact ⟨hs, le_refl 1⟩
  | some inner =>
    have hv := hmem (key, inner) (mem_of_lookupA_some _ _ _ h)
    refine ⟨?_, ?_⟩
    · rw [map_fst_setA_some _ _ _ _ h]
      exact hnd
    · intro e he
      rcases mem_setA _ _ _ e he with h' | h'
      · exact hmem e h'
      · subst h'
        exact ⟨hkey, wfInner_incr inner s hv.2 hs⟩

theorem buildLoop_totalCount (ts : List GoStr) :
    ∀ (c : Chain) (p : List GoStr), p ≠ [] →
    ∃ c' : Chain, buildLoop c p ts = some c' ∧
      totalCount c'.freqTable = totalCount c.freqTable + ts.length ∧
      c'.prefixLen = c.prefixLen := by
  induction ts with
  | nil =>
    intro c p _
    exact ⟨c, rfl, by simp, rfl⟩
  | cons s rest ih =>
    intro c p hp
    cases p with
    | nil => exact absurd rfl hp
    | cons x ps =>
      obtain ⟨c', h1, h2, h3⟩ :=
        ih { c with freqTable := bump c.freqTable (joinSpace (x :: ps)) s,
                     chain := appendChain c.chain (joinSpace (x :: ps)) s }
          (ps ++ [s]) (by simp)
      refine ⟨c', ?_, ?_, ?_⟩
      · simp only [buildLoop, buildStep, shiftOpt]
        exact h1
      · rw [h2]
        simp only [totalCount_bump, List.length_cons]
        push_cast
        ring
      · exact h3

theorem buildLoop_wf (k : Nat) (hk : 1 ≤ k) (ts : List GoStr) :
    ∀ (c : Chain) (p : List GoStr),
    wfTable k c.freqTable → p.length = k → (∀ t ∈ p, spaceFree t) →
    (∀ t ∈ ts, spaceFree t) →
    ∃ c' : Chain, buildLoop c p ts = some c' ∧ wfTable k c'.freqTable ∧
      c'.prefixLen = c.prefixLen := by
  induction ts with
  | nil =>
    intro c p hw _ _ _
    exact ⟨c, rfl, hw, rfl⟩
  | cons s rest ih =>
    intro c p hw hlen hpsf hsf
    cases p with
    | nil =>
      simp at hlen
      omega
    | cons x ps =>
      have hs : spaceFree s := hsf s (by simp)
      have hkey : wfKey k (joinSpace (x :: ps)) :=
        ⟨x :: ps, hlen, hpsf, rfl⟩
      have hw' : wfTable k (bump c.freqTable (joinSpace (x :: ps)) s) :=
        wfTable_bump k _ _ s hw hkey hs
      obtain ⟨c', h1, h2, h3⟩ :=
        ih { c with freqTable := bump c.freqTable (joinSpace (x :: ps)) s,
                     chain := appendChain c.chain (joinSpace (x :: ps)) s }
          (ps ++ [s]) hw'
          (by simp at hlen ⊢; omega)
          (by
            intro t ht
            rcases List.mem_append.mp ht with h' | h'
            · exact hpsf t (List.mem_cons_of_mem _ h')
            · have ht1 : t = s := by simpa using h'
              subst ht1
              exact hs)
          (fun t ht => hsf t (by simp [ht]))
      refine ⟨c', ?_, h2, h3⟩
      simp only [buildLoop, buildStep, shiftOpt]
      exact h1

/-! ### Decoder correctness on encoder output (round-trip infrastructure) -/

theorem pairFields_ne_nil (inner : Inner) (h : inner ≠ []) : pairFields inner ≠ [] := by
  cases inner with
  | nil => exact absurd rfl h
  | cons hd tl => simp [pairFields]

theorem decode_prefixLine (c : Chain) (v : Int) (hv : 1 ≤ v) :
    decodeLine c (itoa v) = some { c with prefixLen := v } := by
  have hsp : splitSpace (itoa v) = [itoa v] := by
    have h := splitSpaceAux_spaceFree (itoa v) [] (itoa_spaceFree v)
    simpa [splitSpace] using h
  have hlen : 0 < (itoa v).length := by
    cases h : itoa v with
    | nil => exact absurd h (itoa_ne_nil v)
    | cons a b => simp
  unfold decodeLine
  rw [hsp]
  simp only [List.length_cons, List.length_nil, lt_self_iff_false, if_false]
  rw [if_pos hlen, atoi_itoa_pos v hv]

theorem decode_dataLine (k : Nat) (hk : 1 ≤ k) (c : Chain) (hpl : c.prefixLen = (k : Int))
    (key : GoStr) (inner : Inner) (hkey : wfKey k key) (hinner : wfInner inner)
    (hnone : lookupA c.freqTable key = none) :
    decodeLine c (key ++ ' ' :: joinSpace (pairFields inner)) =
      some { c with freqTable := c.freqTable ++ [(key, inner)] } := by
  obtain ⟨toks, hlen, hsf, hkeyeq⟩ := hkey
  obtain ⟨hne, hnd, hmem⟩ := hinner
  have hinnerlen : 1 ≤ inner.length := by
    cases inner with
    | nil => exact absurd rfl hne
    | cons hd tl => simp
  have hpfne : pairFields inner ≠ [] := pairFields_ne_nil inner hne
  have htoksne : toks ≠ [] := by
    intro e
    subst e
    simp at hlen
    omega
  have hsplit : splitSpace (key ++ ' ' :: joinSpace (pairFields inner)) =
      toks ++ pairFields inner := by
    rw [hkeyeq, ← joinSpace_append toks _ htoksne hpfne]
    refine splitSpace_joinSpace _ (by simp [htoksne]) ?_
    intro t ht
    rcases List.mem_append.mp ht with h' | h'
    · exact hsf t h'
    · exact pairFields_spaceFree inner (fun p hp => (hmem p hp).1) t h'
  have hlen2 : (toks ++ pairFields inner).length = k + 2 * inner.length := by
    simp [hlen, pairFields_length]
  have hgt : 1 < (toks ++ pairFields inner).length := by omega
  have hle : k ≤ (toks ++ pairFields inner).length := by omega
  have htake : (toks ++ pairFields inner).take k = toks := List.take_left' hlen
  have hdrop : (toks ++ pairFields inner).drop k = pairFields inner := List.drop_left' hlen
  have hploop : pairLoop (pairFields inner) [] = some inner := by
    rw [pairLoop_pairFields inner [] (fun p hp => (hmem p hp).2)]
    rw [foldl_setA_disjoint inner [] (fun key₂ _ => rfl) hnd]
    rfl
  unfold decodeLine
  rw [hsplit, if_pos hgt, hpl]
  show (if k ≤ (toks ++ pairFields inner).length then _ else none) = _
  rw [if_pos hle, htake, hdrop, hploop, ← hkeyeq]
  show some (⟨c.chain, (k : Int), setA c.freqTable key inner⟩ : Chain) = _
  rw [setA_of_lookup_none _ _ _ hnone]

theorem decode_dataLines (k : Nat) (hk : 1 ≤ k) (entries : List (GoStr × Inner)) :
    ∀ c : Chain, c.prefixLen = (k : Int) →
    (∀ e ∈ entries, wfKey k e.1 ∧ wfInner e.2) →
    (∀ e ∈ entries, lookupA c.freqTable e.1 = none) →
    (entries.map Prod.fst).Nodup →
    decodeLines c (entries.map fun e => e.1 ++ ' ' :: joinSpace (pairFields e.2)) =
      some { c with freqTable := c.freqTable ++ entries } := by
  induction entries with
  | nil =>
    intro c _ _ _ _
    simp [decodeLines]
  | cons hd tl ih =>
    intro c hpl hwf hnone hnd
    obtain ⟨key, inner⟩ := hd
    simp only [List.map_cons, List.nodup_cons] at hnd
    have hstep := decode_dataLine k hk c hpl key inner
      (hwf (key, inner) (by simp)).1 (hwf (key, inner) (by simp)).2
      (hnone (key, inner) (by simp))
    simp only [List.map_cons, decodeLines, hstep]
    have hrec := ih { c with freqTable := c.freqTable ++ [(key, inner)] } hpl
      (fun e he => hwf e (by simp [he]))
      (fun e he => by
        rw [lookupA_append]
        have h1 : lookupA c.freqTable e.1 = none := hnone e (by simp [he])
        have h2 : key ≠ e.1 := fun heq => hnd.1 (heq ▸ List.mem_map_of_mem Prod.fst he)
        simp [h1, lookupA, h2])
      hnd.2
    rw [hrec]
    simp

theorem entriesOf_eq (tbl : Table) (hnd : (tbl.map Prod.fst).Nodup) :
    (tbl.map Prod.fst).map (fun key => (key, (lookupA tbl key).getD [])) = tbl := by
  induction tbl with
  | nil => rfl
  | cons hd tl ih =>
    obtain ⟨k₀, v₀⟩ := hd
    simp only [List.map_cons, List.nodup_cons] at hnd
    simp only [List.map_cons, lookupA, if_pos rfl, Option.getD_some, List.cons.injEq]
    refine ⟨rfl, ?_⟩
    rw [List.map_congr_left (fun key hkey => ?_)]
    · exact ih hnd.2
    · have hne : ¬k₀ = key := fun e => hnd.1 (e ▸ hkey)
      simp only [lookupA, if_neg hne]

theorem tableEquiv_of_lookup_eq (d o : Table)
    (h : ∀ key, lookupA d key = lookupA o key) : tableEquiv d o := by
  refine ⟨fun key => by rw [h], fun key s => ?_⟩
  unfold innerLookup
  rw [h]

theorem sentinel_spaceFree : spaceFree sentinel := by decide

theorem decode_encode_wf (k : Nat) (hk : 1 ≤ k) (c : Chain)
    (hpl : c.prefixLen = (k : Int)) (hwf : wfTable k c.freqTable) :
    ∃ c' : Chain, FreqTableFromFreqFile (FreqTableToFile c) = some c' ∧
      c'.prefixLen = c.prefixLen ∧ tableEquiv c'.freqTable c.freqTable := by
  obtain ⟨hnd, hmem⟩ := hwf
  have hperm0 : (sortedKeys c.freqTable).Perm (c.freqTable.map Prod.fst) :=
    List.perm_insertionSort _ _
  have hperm : ((sortedKeys c.freqTable).map
      (fun key => (key, (lookupA c.freqTable key).getD []))).Perm c.freqTable := by
    have h := hperm0.map (fun key => (key, (lookupA c.freqTable key).getD []))
    rw [entriesOf_eq c.freqTable hnd] at h
    exact h
  have hfstE : ((sortedKeys c.freqTable).map
      (fun key => (key, (lookupA c.freqTable key).getD []))).map Prod.fst =
      sortedKeys c.freqTable := by
    rw [List.map_map]
    exact List.map_id _
  have hndE : (((sortedKeys c.freqTable).map
      (fun key => (key, (lookupA c.freqTable key).getD []))).map Prod.fst).Nodup := by
    rw [hfstE]
    exact hperm0.nodup_iff.mpr hnd
  have hwfE : ∀ e ∈ (sortedKeys c.freqTable).map
      (fun key => (key, (lookupA c.freqTable key).getD [])),
      wfKey k e.1 ∧ wfInner e.2 := fun e he => hmem e (hperm.mem_iff.mp he)
  have hlines : FreqTableToFile c = itoa c.prefixLen ::
      ((sortedKeys c.freqTable).map
        (fun key => (key, (lookupA c.freqTable key).getD []))).map
        (fun e => e.1 ++ ' ' :: joinSpace (pairFields e.2)) := by
    unfold FreqTableToFile
    rw [List.map_map]
    rfl
  have h1 : decodeLine (NewChain 0) (itoa (k : Int)) =
      some { NewChain 0 with prefixLen := (k : Int) } :=
    decode_prefixLine _ _ (by exact_mod_cast hk)
  have h2 := decode_dataLines k hk
    ((sortedKeys c.freqTable).map (fun key => (key, (lookupA c.freqTable key).getD [])))
    ⟨[], (k : Int), []⟩ rfl hwfE (fun e _ => rfl) hndE
  refine ⟨⟨[], (k : Int), (sortedKeys c.freqTable).map
      (fun key => (key, (lookupA c.freqTable key).getD []))⟩, ?_, by simp [hpl], ?_⟩
  · show decodeLines (NewChain 0) _ = _
    rw [hlines, hpl]
    simp only [decodeLines, h1]
    exact h2
  · exact tableEquiv_of_lookup_eq _ _ (fun key => lookupA_perm _ _ hndE hperm key)

theorem startWindow_ofNat (k : Nat) :
    startWindow (k : Int) = some (List.replicate k sentinel) := by
  unfold startWindow
  rw [if_neg (by omega)]
  congr 1

/-- C1.  Round-trip identity: for every frequency table built from a token
stream (positive prefix length; whitespace-delimited tokens, hence
space-free, with every count at least 1), decoding the file produced by
encoding it (`FreqTableFromFreqFile` applied to the output of
`FreqTableToFile`) yields a table with the same `prefixLen` and the same
prefix-key-to-(suffix-to-count) mapping, compared as maps rather than as
strings. -/
theorem round_trip_identity (k : Nat) (ts : List GoStr) (hk : 1 ≤ k)
    (hts : ∀ t ∈ ts, spaceFree t) (c : Chain)
    (hbuild : BuildTokens (NewChain (k : Int)) ts = some c) :
    ∃ c' : Chain, FreqTableFromFreqFile (FreqTableToFile c) = some c' ∧
      c'.prefixLen = c.prefixLen ∧ tableEquiv c'.freqTable c.freqTable := by
  have hwf0 : wfTable k (NewChain (k : Int)).freqTable := by
    constructor
    · simp [NewChain]
    · intro e he
      simp [NewChain] at he
  obtain ⟨c₀, hb, hwf, hplc⟩ := buildLoop_wf k hk ts (NewChain (k : Int))
    (List.replicate k sentinel) hwf0 (by simp)
    (fun t ht => (List.eq_of_mem_replicate ht) ▸ sentinel_spaceFree) hts
  unfold BuildTokens at hbuild
  rw [show (NewChain (k : Int)).prefixLen = (k : Int) from rfl,
    startWindow_ofNat] at hbuild
  have hbuild2 : buildLoop (NewChain (k : Int)) (List.replicate k sentinel) ts =
      some c := hbuild
  rw [hb] at hbuild2
  injection hbuild2 with hbuild2
  subst hbuild2
  exact decode_encode_wf k hk c₀ (by rw [hplc]; rfl) hwf

/-- C1 witness: the table built from tokens "a" "b" with prefix length 1
decodes from its own encoding to an equivalent table. -/
theorem round_trip_identity_witness :
    ∃ c' : Chain,
      FreqTableFromFreqFile (FreqTableToFile
        ⟨[(['"', '"'], [['a']]), (['a'], [['b']])], 1,
         [(['"', '"'], [(['a'], 1)]), (['a'], [(['b'], 1)])]⟩) = some c' ∧
      c'.prefixLen = (⟨[(['"', '"'], [['a']]), (['a'], [['b']])], 1,
         [(['"', '"'], [(['a'], 1)]), (['a'], [(['b'], 1)])]⟩ : Chain).prefixLen ∧
      tableEquiv c'.freqTable
        (⟨[(['"', '"'], [['a']]), (['a'], [['b']])], 1,
         [(['"', '"'], [(['a'], 1)]), (['a'], [(['b'], 1)])]⟩ : Chain).freqTable :=
  round_trip_identity 1 [['a'], ['b']] (by decide) (by decide) _ (by decide)

/-- C2.  Expansion fidelity: for every frequency table (a valid map state
with the data-model invariant that counts are at least 1) and every prefix
key present in it, `ChainFromFreqTable` gives that key a suffix sequence
whose length equals the sum of the key's recorded counts, and in which
every suffix token occurs exactly its recorded count of times (0 for
unrecorded tokens). -/
theorem expansion_fidelity (c : Chain) (key : GoStr) (inner : Inner)
    (hnd : (c.freqTable.map Prod.fst).Nodup)
    (hlook : lookupA c.freqTable key = some inner)
    (hndInner : (inner.map Prod.fst).Nodup)
    (hpos : ∀ p ∈ inner, 1 ≤ p.2) :
    lookupA (ChainFromFreqTable c).chain key = some (expandInner inner) ∧
    ((expandInner inner).length : Int) = innerSum inner ∧
    ∀ s : GoStr, ((expandInner inner).count s : Int) = (lookupA inner s).getD 0 := by
  have h0 : ∀ p ∈ inner, (0 : Int) ≤ p.2 := fun p hp => le_trans zero_le_one (hpos p hp)
  refine ⟨?_, expandInner_length inner h0, fun s => expandInner_count inner s hndInner h0⟩
  unfold ChainFromFreqTable
  exact lookup_foldl_setA_mem expandInner c.freqTable c.chain key inner hnd
    (mem_of_lookupA_some _ _ _ hlook)

/-- C2 witness: a concrete table with suffix counts 2 and 1 expands to a
3-element sequence with the right multiplicities. -/
theorem expansion_fidelity_witness :
    lookupA (ChainFromFreqTable ⟨[], 1, [(['a'], [(['b'], 2), (['c'], 1)])]⟩).chain ['a'] =
      some (expandInner [(['b'], 2), (['c'], 1)]) ∧
    ((expandInner [(['b'], 2), (['c'], 1)]).length : Int) = innerSum [(['b'], 2), (['c'], 1)] ∧
    ∀ s : GoStr, ((expandInner [(['b'], 2), (['c'], 1)]).count s : Int) =
      (lookupA [(['b'], 2), (['c'], 1)] s).getD 0 :=
  expansion_fidelity ⟨[], 1, [(['a'], [(['b'], 2), (['c'], 1)])]⟩ ['a']
    [(['b'], 2), (['c'], 1)] (by decide) (by decide) (by decide) (by decide)

/-- C3 counterexample: an expanded chain with `prefixLen = 0` whose start
key (the empty key) has a nonempty suffix sequence.  The claim says
`Generate(1)` must emit exactly 1 token (the walk is not at a missing or
empty key), but the program dies in `Prefix.Shift` (out-of-range access on
the empty window) and produces no output at all. -/
theorem generation_bound_counterexample :
    (lookupA (Chain.chain ⟨[([], [['a']])], 0, []⟩)
        (joinSpace (List.replicate (Int.toNat 0) sentinel))).getD [] = [['a']] ∧
    Generate ⟨[([], [['a']])], 0, []⟩ (fun _ => 0) 1 = none := by
  constructor
  · decide
  · decide

theorem generateLoop_bound (chain : ChainMap) (rng : Nat → Nat) (n : Nat) :
    ∀ (p : List GoStr) (step : Nat), p ≠ [] →
    ∃ ws : List GoStr, generateLoop chain rng n p step = some ws ∧
      ws.length ≤ n ∧
      (ws.length < n →
        (lookupA chain (joinSpace (ws.foldl shiftT p))).getD [] = []) := by
  induction n with
  | zero =>
    intro p step _
    exact ⟨[], rfl, le_refl 0, by omega⟩
  | succ m ih =>
    intro p step hp
    cases hch : (lookupA chain (joinSpace p)).getD [] with
    | nil =>
      refine ⟨[], ?_, by simp, fun _ => ?_⟩
      · simp [generateLoop, hch]
      · simpa using hch
    | cons ch rest =>
      cases p with
      | nil => exact absurd rfl hp
      | cons x ps =>
        obtain ⟨ws, h1, h2, h3⟩ := ih
          (ps ++ [(ch :: rest).getD (rng step % (ch :: rest).length) []]) (step + 1)
          (by simp)
        refine ⟨(ch :: rest).getD (rng step % (ch :: rest).length) [] :: ws, ?_, ?_, ?_⟩
        · simp only [generateLoop, hch, List.isEmpty_cons, shiftOpt, h1]
          rfl
        · simpa using Nat.succ_le_succ h2
        · intro hlt
          have hlt2 : ws.length < m := by simpa using hlt
          have h4 := h3 hlt2
          simpa [List.foldl_cons, shiftT] using h4

/-- C3, amended.  Generation bound for chains whose prefix length is at
least 1 (so that the window shift is always in range): `Generate(n)`
returns a word list of length at most `n`; a shorter list is returned only
when the walk has reached a prefix key whose suffix sequence is missing or
empty; and `n = 0` yields the empty output.  (For `prefixLen = 0` the
original claim fails: the first shift is an out-of-range access — see the
counterexample.) -/
theorem generation_bound (c : Chain) (rng : Nat → Nat) (n : Nat)
    (hk : 1 ≤ c.prefixLen) :
    ∃ ws : List GoStr, Generate c rng n = some ws ∧ ws.length ≤ n ∧
      (ws.length < n → (lookupA c.chain
        (joinSpace (ws.foldl shiftT
          (List.replicate c.prefixLen.toNat sentinel)))).getD [] = []) ∧
      (n = 0 → ws = []) := by
  have hsw : startWindow c.prefixLen =
      some (List.replicate c.prefixLen.toNat sentinel) := by
    unfold startWindow
    rw [if_neg (by omega)]
  have hpne : List.replicate c.prefixLen.toNat sentinel ≠ [] := by
    have h1 : 1 ≤ c.prefixLen.toNat := by omega
    cases h : c.prefixLen.toNat with
    | zero => omega
    | succ m => simp [h, List.replicate_succ]
  obtain ⟨ws, h1, h2, h3⟩ := generateLoop_bound c.chain rng n _ 0 hpne
  refine ⟨ws, ?_, h2, h3, ?_⟩
  · unfold Generate
    rw [hsw]
    exact h1
  · intro hn
    subst hn
    exact List.length_eq_zero.mp (Nat.le_zero.mp h2)

/-- C3 witness: a prefix-length-1 chain where the walk gets stuck after one
step; `Generate` with bound 2 emits exactly one word. -/
theorem generation_bound_witness :
    ∃ ws : List GoStr,
      Generate ⟨[(['"', '"'], [['x']])], 1, []⟩ (fun _ => 0) 2 = some ws ∧
      ws.length ≤ 2 ∧
      (ws.length < 2 → (lookupA (Chain.chain ⟨[(['"', '"'], [['x']])], 1, []⟩)
        (joinSpace (ws.foldl shiftT
          (List.replicate (Int.toNat 1) sentinel)))).getD [] = []) ∧
      (2 = 0 → ws = []) :=
  generation_bound ⟨[(['"', '"'], [['x']])], 1, []⟩ (fun _ => 0) 2 (by decide)

/-- C4.  Count conservation: building a frequency table from a token stream
of `L` tokens (`L ≥ prefixLen ≥ 1`, starting from an empty table) performs
exactly one increment per token, so the sum of all counts over all prefix
keys and suffixes equals `L` — the first `prefixLen` tokens being counted
against sentinel-containing prefixes. -/
theorem count_conservation (k : Nat) (ts : List GoStr) (hk : 1 ≤ k)
    (hlen : k ≤ ts.length) :
    ∃ c : Chain, BuildTokens (NewChain (k : Int)) ts = some c ∧
      totalCount c.freqTable = (ts.length : Int) := by
  have hpne : List.replicate k sentinel ≠ [] := by
    cases k with
    | zero => omega
    | succ m => simp [List.replicate_succ]
  obtain ⟨c, h1, h2, h3⟩ :=
    buildLoop_totalCount ts (NewChain (k : Int)) (List.replicate k sentinel) hpne
  refine ⟨c, ?_, ?_⟩
  · unfold BuildTokens
    rw [show (NewChain (k : Int)).prefixLen = (k : Int) from rfl, startWindow_ofNat]
    exact h1
  · rw [h2]
    simp [NewChain, totalCount]

/-- C4 witness: prefix length 1, two tokens, total count 2. -/
theorem count_conservation_witness :
    ∃ c : Chain, BuildTokens (NewChain ((1 : Nat) : Int)) [['a'], ['b']] = some c ∧
      totalCount c.freqTable = (([['a'], ['b']] : List GoStr).length : Int) :=
  count_conservation 1 [['a'], ['b']] (by decide) (by decide)

/-- C5.  Format rejection of odd remainders: if decoding reaches a data
line (more than one field) whose field count beyond the current
`prefixLen`-field prefix is odd, the whole decode fails — the program dies
on the out-of-range `items[i+1]` access — and no partial table is
returned. -/
theorem format_rejection_odd (pre : List GoStr) (line : GoStr) (post : List GoStr)
    (c : Chain) (k : Nat)
    (hpre : decodeLines (NewChain 0) pre = some c)
    (hpl : c.prefixLen = (k : Int))
    (hlen : 1 < (splitSpace line).length)
    (hk : k ≤ (splitSpace line).length)
    (hodd : ((splitSpace line).length - k) % 2 = 1) :
    FreqTableFromFreqFile (pre ++ line :: post) = none := by
  unfold FreqTableFromFreqFile
  rw [decodeLines_append, hpre]
  have hdl : decodeLine c line = none := by
    unfold decodeLine
    rw [if_pos hlen, hpl]
    show (if k ≤ (splitSpace line).length then _ else none) = none
    rw [if_pos hk]
    have hdropodd : ((splitSpace line).drop k).length % 2 = 1 := by
      rw [List.length_drop]
      exact hodd
    rw [pairLoop_odd _ hdropodd]
  simp [decodeLines, hdl]

/-- C5 witness: the file with lines "1" and "a b 2 c" (three fields after
the one-field prefix) fails to decode. -/
theorem format_rejection_odd_witness :
    FreqTableFromFreqFile ([['1']] ++ ['a', ' ', 'b', ' ', '2', ' ', 'c'] :: []) = none :=
  format_rejection_odd [['1']] ['a', ' ', 'b', ' ', '2', ' ', 'c'] []
    ⟨[], 1, []⟩ 1 (by decide) (by decide) (by decide) (by decide) (by decide)

/-- C6 counterexample: with `prefixLen = 0` the very first `Prefix.Shift`
of ingestion is an out-of-range access on the empty window (`p[1:]` /
`p[len(p)-1]`), so building from the one-token stream "a" dies instead of
counting the token under the empty key. -/
theorem prefixLen_zero_counterexample :
    shiftOpt [] ['a'] = none ∧ BuildTokens (NewChain 0) [['a']] = none := by
  constructor
  · rfl
  · decide

/-- C6, amended.  `prefixLen = 0` is not usable for ingestion: building
with `prefixLen = 0` succeeds only on the empty token stream (leaving the
table empty); on any nonempty stream the first `Prefix.Shift` performs an
out-of-range access on the empty window and the program dies. -/
theorem prefixLen_zero_amended :
    BuildTokens (NewChain 0) [] = some (NewChain 0) ∧
    ∀ (t : GoStr) (ts : List GoStr), BuildTokens (NewChain 0) (t :: ts) = none := by
  constructor
  · rfl
  · intro t ts
    simp [BuildTokens, startWindow, NewChain, buildLoop, buildStep, shiftOpt]

/-- C7 counterexample: the file with lines "1" and "a b -3" decodes
successfully — the negative count parses and is stored as `-3` — where the
claim demands a format error and a failed decode.  (The resulting `Chain`
has an empty `chain`, `prefixLen` 1, and the single entry mapping prefix
"a" to suffix "b" with count `-3`.) -/
theorem negative_count_counterexample :
    FreqTableFromFreqFile [['1'], ['a', ' ', 'b', ' ', '-', '3']] =
      some ⟨[], 1, [(['a'], [(['b'], -3)])]⟩ := by
  decide

/-- C7, amended.  Each pair's second field must parse as an integer (sign
allowed): a field that does not parse as an integer at all makes the whole
decode fail with no table returned and no fallback value substituted, while
a field parsing as a negative integer is accepted and its value stored
as-is. -/
theorem count_parse_amended :
    (∀ (pre : List GoStr) (line : GoStr) (post : List GoStr) (c : Chain) (k : Nat)
       (s bad : GoStr) (rest : List GoStr),
       decodeLines (NewChain 0) pre = some c →
       c.prefixLen = (k : Int) →
       1 < (splitSpace line).length →
       (splitSpace line).drop k = s :: bad :: rest →
       atoi bad = none →
       FreqTableFromFreqFile (pre ++ line :: post) = none) ∧
    (∀ (pre : List GoStr) (line : GoStr) (c : Chain) (k : Nat)
       (s cnt : GoStr) (v : Int),
       decodeLines (NewChain 0) pre = some c →
       c.prefixLen = (k : Int) →
       1 < (splitSpace line).length →
       (splitSpace line).drop k = [s, cnt] →
       atoi cnt = some v →
       FreqTableFromFreqFile (pre ++ [line]) =
         some (⟨c.chain, c.prefixLen,
           setA c.freqTable (joinSpace ((splitSpace line).take k)) [(s, v)]⟩ : Chain)) := by
  constructor
  · intro pre line post c k s bad rest hpre hpl hlen hdrop hbad
    unfold FreqTableFromFreqFile
    rw [decodeLines_append, hpre]
    have hk : k ≤ (splitSpace line).length := by
      by_contra hgt
      rw [List.drop_eq_nil_of_le (by omega)] at hdrop
      exact List.noConfusion hdrop
    have hdl : decodeLine c line = none := by
      unfold decodeLine
      rw [if_pos hlen, hpl]
      show (if k ≤ (splitSpace line).length then _ else none) = none
      rw [if_pos hk, hdrop]
      show (match pairLoop (s :: bad :: rest) [] with
        | none => none
        | some inner => some _) = none
      unfold pairLoop
      rw [hbad]
    simp [decodeLines, hdl]
  · intro pre line c k s cnt v hpre hpl hlen hdrop hcnt
    unfold FreqTableFromFreqFile
    rw [decodeLines_append, hpre]
    have hk : k ≤ (splitSpace line).length := by
      by_contra hgt
      rw [List.drop_eq_nil_of_le (by omega)] at hdrop
      exact List.noConfusion hdrop
    have hdl : decodeLine c line = some (⟨c.chain, c.prefixLen,
        setA c.freqTable (joinSpace ((splitSpace line).take k)) [(s, v)]⟩ : Chain) := by
      unfold decodeLine
      rw [if_pos hlen, hpl]
      show (if k ≤ (splitSpace line).length then _ else none) = _
      rw [if_pos hk, hdrop]
      show (match pairLoop [s, cnt] [] with
        | none => none
        | some inner => some _) = _
      unfold pairLoop
      rw [hcnt]
      rfl
    simp [decodeLines, hdl]

/-- C7 witness for the amended claim: under prefix length 1, the line
"a b x" fails to decode (count field "x" does not parse), and the line
"a b -3" decodes, storing `-3`. -/
theorem count_parse_amended_witness :
    FreqTableFromFreqFile ([['1']] ++ ['a', ' ', 'b', ' ', 'x'] :: []) = none ∧
    FreqTableFromFreqFile ([['1']] ++ [['a', ' ', 'b', ' ', '-', '3']]) =
      some (⟨Chain.chain ⟨[], 1, []⟩, Chain.prefixLen ⟨[], 1, []⟩,
        setA (Chain.freqTable ⟨[], 1, []⟩)
          (joinSpace ((splitSpace ['a', ' ', 'b', ' ', '-', '3']).take 1))
          [(['b'], -3)]⟩ : Chain) :=
  ⟨count_parse_amended.1 [['1']] ['a', ' ', 'b', ' ', 'x'] [] ⟨[], 1, []⟩ 1 ['b'] ['x'] []
      (by decide) (by decide) (by decide) (by decide) (by decide),
    count_parse_amended.2 [['1']] ['a', ' ', 'b', ' ', '-', '3'] ⟨[], 1, []⟩ 1
      ['b'] ['-', '3'] (-3)
      (by decide) (by decide) (by decide) (by decide) (by decide)⟩

/-- C8.  Deterministic sorted encoding: for every chain (with the map
invariant of distinct prefix keys), the encoded output's first line is the
decimal rendering of `prefixLen`, followed by exactly one line per distinct
prefix key — the data lines are the per-key lines taken in the order of
`sortedKeys`, which is a permutation of the table's (distinct) keys, is
itself duplicate-free, and is sorted ascending in the bytewise
lexicographic string order used by `sort.Strings`. -/
theorem deterministic_sorted_encoding (c : Chain)
    (hnd : (c.freqTable.map Prod.fst).Nodup) :
    FreqTableToFile c = itoa c.prefixLen ::
      (sortedKeys c.freqTable).map (lineFor c.freqTable) ∧
    (sortedKeys c.freqTable).Perm (c.freqTable.map Prod.fst) ∧
    (sortedKeys c.freqTable).Nodup ∧
    List.Sorted strLeR (sortedKeys c.freqTable) ∧
    (sortedKeys c.freqTable).length = c.freqTable.length := by
  have hperm : (sortedKeys c.freqTable).Perm (c.freqTable.map Prod.fst) :=
    List.perm_insertionSort _ _
  refine ⟨rfl, hperm, hperm.nodup_iff.mpr hnd, List.sorted_insertionSort _ _, ?_⟩
  rw [hperm.length_eq, List.length_map]

/-- C8 witness: a two-key table whose association list stores "b" before
"a"; the encoder emits the "a" line first. -/
theorem deterministic_sorted_encoding_witness :
    FreqTableToFile ⟨[], 5, [(['b'], [(['x'], 1)]), (['a'], [(['y'], 2)])]⟩ =
      itoa (Chain.prefixLen ⟨[], 5, [(['b'], [(['x'], 1)]), (['a'], [(['y'], 2)])]⟩) ::
      (sortedKeys [(['b'], [(['x'], 1)]), (['a'], [(['y'], 2)])]).map
        (lineFor [(['b'], [(['x'], 1)]), (['a'], [(['y'], 2)])]) ∧
    (sortedKeys [(['b'], [(['x'], 1)]), (['a'], [(['y'], 2)])]).Perm
      ([(['b'], [(['x'], 1)]), (['a'], [(['y'], 2)])].map Prod.fst) ∧
    (sortedKeys [(['b'], [(['x'], 1)]), (['a'], [(['y'], 2)])]).Nodup ∧
    List.Sorted strLeR (sortedKeys [(['b'], [(['x'], 1)]), (['a'], [(['y'], 2)])]) ∧
    (sortedKeys [(['b'], [(['x'], 1)]), (['a'], [(['y'], 2)])]).length =
      ([(['b'], [(['x'], 1)]), (['a'], [(['y'], 2)])] : Table).length :=
  deterministic_sorted_encoding ⟨[], 5, [(['b'], [(['x'], 1)]), (['a'], [(['y'], 2)])]⟩
    (by decide)

/-- C9 counterexample: the sentinel is the ordinary two-character string
consisting of two double quotes, and the two-character input `""` is a
whitespace-delimited token equal to it — tokenizing that input yields
exactly the sentinel. -/
theorem sentinel_distinctness_counterexample :
    scanWords ['"', '"'] = [sentinel] := by
  decide

theorem scanWordsAux_chars (s : List Char) :
    ∀ (acc t : List Char), t ∈ scanWordsAux s acc → ∀ ch ∈ t, ch ∈ s ∨ ch ∈ acc := by
  induction s with
  | nil =>
    intro acc t ht ch hch
    cases acc with
    | nil => simp [scanWordsAux] at ht
    | cons a as =>
      simp only [scanWordsAux, List.mem_singleton] at ht
      subst ht
      right
      exact List.mem_reverse.mp hch
  | cons c cs ih =>
    intro acc t ht ch hch
    by_cases hsp : goIsSpace c
    · by_cases hacc : acc = []
      · subst hacc
        simp only [scanWordsAux, hsp, if_true, if_pos rfl] at ht
        rcases ih [] t ht ch hch with h | h
        · exact Or.inl (List.mem_cons_of_mem _ h)
        · simp at h
      · simp only [scanWordsAux, hsp, if_true, if_neg hacc] at ht
        rcases List.mem_cons.mp ht with rfl | ht2
        · right
          exact List.mem_reverse.mp hch
        · rcases ih [] t ht2 ch hch with h | h
          · exact Or.inl (List.mem_cons_of_mem _ h)
          · simp at h
    · simp only [scanWordsAux, hsp, if_false] at ht
      rcases ih (c :: acc) t ht ch hch with h | h
      · exact Or.inl (List.mem_cons_of_mem _ h)
      · rcases List.mem_cons.mp h with rfl | h2
        · exact Or.inl (List.mem_cons_self _ _)
        · exact Or.inr h2

/-- C9, amended.  The sentinel `""` is not reserved: it can occur as a real
whitespace-delimited token (see the counterexample).  Distinctness holds
only for inputs that never contain the double-quote character: every token
of `scanWords input` draws its characters from `input`, so if `"` does not
occur in the input, no token equals the sentinel. -/
theorem sentinel_distinctness_amended (input : GoStr) (h : '"' ∉ input) :
    sentinel ∉ scanWords input := by
  intro hmem
  have hch := scanWordsAux_chars input [] sentinel hmem '"' (by decide)
  rcases hch with h' | h'
  · exact h h'
  · simp at h'

/-- C9 witness for the amended claim: the input "ab cd" contains no double
quote, so its token list does not contain the sentinel. -/
theorem sentinel_distinctness_amended_witness :
    sentinel ∉ scanWords ['a', 'b', ' ', 'c', 'd'] :=
  sentinel_distinctness_amended ['a', 'b', ' ', 'c', 'd'] (by decide)

/-- C10.  Implicit decode behaviour for short lines: any line after the
first that splits into a single nonempty field which parses as an integer
silently overwrites the table's `prefixLen` for all subsequent data lines
(the already-accumulated table is kept, and decoding continues from the
modified state) rather than being rejected; and a completely empty line is
silently skipped, leaving the state unchanged. -/
theorem decode_prefixLen_overwrite (pre : List GoStr) (post : List GoStr) (c : Chain)
    (hpre : decodeLines (NewChain 0) pre = some c) :
    (∀ (line f : GoStr) (n : Int),
       splitSpace line = [f] → f ≠ [] → atoi f = some n →
       FreqTableFromFreqFile (pre ++ line :: post) =
         decodeLines (⟨c.chain, n, c.freqTable⟩ : Chain) post) ∧
    FreqTableFromFreqFile (pre ++ ([] : GoStr) :: post) = decodeLines c post := by
  constructor
  · intro line f n hsp hf hat
    unfold FreqTableFromFreqFile
    rw [decodeLines_append, hpre]
    have hflen : 0 < f.length := by
      cases hfe : f with
      | nil => exact absurd hfe hf
      | cons a b => simp
    have hdl : decodeLine c line = some (⟨c.chain, n, c.freqTable⟩ : Chain) := by
      unfold decodeLine
      rw [hsp]
      simp only [List.length_cons, List.length_nil, lt_self_iff_false, if_false]
      rw [if_pos hflen, hat]
    simp [decodeLines, hdl]
  · unfold FreqTableFromFreqFile
    rw [decodeLines_append, hpre]
    have hdl : decodeLine c [] = some c := by
      unfold decodeLine
      simp [splitSpace, splitSpaceAux]
    simp [decodeLines, hdl]

/-- C10 witness: in the file "2" / "3" / "a b c 1", the middle line
overwrites `prefixLen` to 3, so decoding continues on the data line with a
3-token prefix; and decoding with an empty middle line continues with
`prefixLen` 2 unchanged. -/
theorem decode_prefixLen_overwrite_witness :
    FreqTableFromFreqFile ([['2']] ++ ['3'] :: [['a', ' ', 'b', ' ', 'c', ' ', '1']]) =
      decodeLines (⟨Chain.chain ⟨[], 2, []⟩, 3, Chain.freqTable ⟨[], 2, []⟩⟩ : Chain)
        [['a', ' ', 'b', ' ', 'c', ' ', '1']] ∧
    FreqTableFromFreqFile ([['2']] ++ ([] : GoStr) :: [['a', ' ', 'b', ' ', 'c', ' ', '1']]) =
      decodeLines ⟨[], 2, []⟩ [['a', ' ', 'b', ' ', 'c', ' ', '1']] :=
  ⟨(decode_prefixLen_overwrite [['2']] [['a', ' ', 'b', ' ', 'c', ' ', '1']]
      ⟨[], 2, []⟩ (by decide)).1 ['3'] ['3'] 3 (by decide) (by decide) (by decide),
    (decode_prefixLen_overwrite [['2']] [['a', ' ', 'b', ' ', 'c', ' ', '1']]
      ⟨[], 2, []⟩ (by decide)).2⟩

end MarkVShaney
